import Mathlib

/-!
Shallow embedding of the `ordermutex` package: a ticket lock with precise
per-ticket wakeups and ticket cancellation ("burning").

State of `orderMutex` (ordermutex.go):
  - `next`   : atomic uint64 counter of issued tickets
  - `cur`    : uint64, the ticket currently allowed to hold the lock
  - `waiters`: map from ticket id to its wakeup channel; we model only the
               key set (which ids have a registered waiter), since each entry
               is a single-shot channel
  - `burned` : set of cancelled ticket ids

Wakeups (closing a channel) are modelled as an `Option Nat` event returned by
the operations: `some j` means the channel of ticket `j` was closed.
uint64 arithmetic is modelled on `Nat` with explicit reduction mod `2 ^ 64`.
-/

namespace OrderMutex

/-- 2^64: the size of the uint64 ticket space. -/
def U : Nat := 2 ^ 64

/-- The fields of `orderMutex` (ordermutex.go, lines 24-31). -/
structure OMState where
  next : Nat
  cur : Nat
  waiters : Finset Nat
  burned : Finset Nat
deriving DecidableEq

/-- `New()`: fresh instance with empty maps and zero counters. -/
def initState : OMState := ⟨0, 0, ∅, ∅⟩

/-- `GetTicket`: `id := m.next.Add(1) - 1` on uint64; returns the new state
and the issued id. `Add` stores `(next+1) mod 2^64`; the `- 1` is uint64
subtraction. -/
def getTicket (s : OMState) : OMState × Nat :=
  let n := (s.next + 1) % U
  ({ s with next := n }, (n + (U - 1)) % U)

/-- `Lock(t)` up to its suspension point. The returned Bool is `true` on the
fast path (`id == m.cur`: return immediately), `false` when the caller parks
on (or creates) the ticket's waiter entry. The suspension itself is modelled
at the trace level (`Step`). -/
def lock (s : OMState) (id : Nat) : OMState × Bool :=
  if id = s.cur then (s, true)
  else ({ s with waiters := insert id s.waiters }, false)

/-- The skip loop of `advanceAndWakeNext`: while `cur ∈ burned`, delete it
from `burned` and increment `cur` (uint64 increment). -/
def advanceLoop (cur : Nat) (burned : Finset Nat) : Nat × Finset Nat :=
  if h : cur ∈ burned then advanceLoop ((cur + 1) % U) (burned.erase cur)
  else (cur, burned)
termination_by burned.card
decreasing_by simpa using Finset.card_erase_lt_of_mem h

/-- `advanceAndWakeNext`: skip burned tickets, then if a waiter is registered
for the resulting `cur`, delete that entry and close its channel (event
`some cur`); otherwise no wakeup (`none`). -/
def advanceAndWakeNext (s : OMState) : OMState × Option Nat :=
  let a := advanceLoop s.cur s.burned
  if a.1 ∈ s.waiters then
    ({ s with cur := a.1, burned := a.2, waiters := s.waiters.erase a.1 }, some a.1)
  else
    ({ s with cur := a.1, burned := a.2 }, none)

/-- `Unlock(t)`: panics (`none`) when `id != m.cur`; otherwise increments
`cur` (uint64) and runs `advanceAndWakeNext`. -/
def unlock (s : OMState) (id : Nat) : Option (OMState × Option Nat) :=
  if id = s.cur then some (advanceAndWakeNext { s with cur := (s.cur + 1) % U })
  else none

/-- `ReturnTicket(t)`: if `id < m.cur`, nothing to do; otherwise mark the id
burned, delete (without closing) its waiter entry if present, and run
`advanceAndWakeNext`. -/
def returnTicket (s : OMState) (id : Nat) : OMState × Option Nat :=
  if id < s.cur then (s, none)
  else advanceAndWakeNext { s with burned := insert id s.burned, waiters := s.waiters.erase id }

/-- Issuing k tickets in a row starting from a fresh instance. -/
def issueN : Nat → OMState
  | 0 => initState
  | k + 1 => (getTicket (issueN k)).1

/-! ### Trace model

Executions under the documented usage contract: each issued ticket either
burns (calls `ReturnTicket`) strictly before any `Lock`, or runs
`Lock`/`Unlock` (optionally followed by a defensive `ReturnTicket`).
`fate i = true` means ticket `i` is destined to burn. Suspension inside
`Lock` is modelled by the `parked` status; the caller resumes (status
`inside`, i.e. admitted into the critical section) exactly when some
`Unlock`/`ReturnTicket` fires its wakeup. `adm` records the realized
admission order: the sequence of positions whose `Lock` has returned. -/

inductive TStatus
  | notIssued
  | pending
  | parked
  | inside
  | released
  | cancelled
deriving DecidableEq

structure Config where
  st : OMState
  status : Nat → TStatus
  adm : List Nat

/-- Apply a wakeup event to the per-ticket statuses: the woken ticket's
`Lock` returns, admitting it into the critical section. -/
def applyWake (status : Nat → TStatus) : Option Nat → Nat → TStatus
  | none => status
  | some j => Function.update status j .inside

/-- One atomic transition of an execution respecting the usage contract. -/
inductive Step (fate : Nat → Bool) : Config → Config → Prop
  | issue (c : Config) (h : c.st.next + 1 < U) :
      Step fate c ⟨(getTicket c.st).1,
        Function.update c.status (getTicket c.st).2 .pending, c.adm⟩
  | lockFast (c : Config) (i : Nat) (st' : OMState)
      (hf : fate i = false) (hs : c.status i = .pending)
      (hl : lock c.st i = (st', true)) :
      Step fate c ⟨st', Function.update c.status i .inside, c.adm ++ [i]⟩
  | lockPark (c : Config) (i : Nat) (st' : OMState)
      (hf : fate i = false) (hs : c.status i = .pending)
      (hl : lock c.st i = (st', false)) :
      Step fate c ⟨st', Function.update c.status i .parked, c.adm⟩
  | unlockStep (c : Config) (i : Nat) (st' : OMState) (w : Option Nat)
      (hs : c.status i = .inside)
      (hu : unlock c.st i = some (st', w)) :
      Step fate c ⟨st', applyWake (Function.update c.status i .released) w,
        c.adm ++ w.toList⟩
  | cancelStep (c : Config) (i : Nat) (st' : OMState) (w : Option Nat)
      (hf : fate i = true) (hs : c.status i = .pending)
      (hr : returnTicket c.st i = (st', w)) :
      Step fate c ⟨st', applyWake (Function.update c.status i .cancelled) w,
        c.adm ++ w.toList⟩
  | cancelLate (c : Config) (i : Nat) (st' : OMState) (w : Option Nat)
      (hs : c.status i = .released)
      (hr : returnTicket c.st i = (st', w)) :
      Step fate c ⟨st', applyWake c.status w, c.adm ++ w.toList⟩

/-- The initial configuration: fresh instance, nothing issued. -/
def initConfig : Config := ⟨initState, fun _ => .notIssued, []⟩

/-- Reachability under the usage contract. -/
def reach (fate : Nat → Bool) : Config → Prop :=
  Relation.ReflTransGen (Step fate) initConfig

/-- The global invariant tying the `orderMutex` fields to the ticket
lifecycle. -/
structure Inv (fate : Nat → Bool) (c : Config) : Prop where
  next_lt : c.st.next < U
  cur_le : c.st.cur ≤ c.st.next
  issued_iff : ∀ i, c.status i ≠ .notIssued ↔ i < c.st.next
  parked_iff : ∀ i, c.status i = .parked ↔ i ∈ c.st.waiters
  burned_iff : ∀ i, i ∈ c.st.burned ↔ (c.status i = .cancelled ∧ c.st.cur ≤ i)
  inside_cur : ∀ i, c.status i = .inside → i = c.st.cur
  released_lt : ∀ i, c.status i = .released → i < c.st.cur
  pending_ge : ∀ i, c.status i = .pending → c.st.cur ≤ i
  parked_gt : ∀ i, c.status i = .parked → c.st.cur < i
  fate_burn : ∀ i, c.status i = .cancelled → fate i = true
  fate_live : ∀ i, c.status i = .inside ∨ c.status i = .released ∨ c.status i = .parked →
      fate i = false
  adm_mem : ∀ i, i ∈ c.adm ↔ (c.status i = .inside ∨ c.status i = .released)
  adm_sorted : c.adm.Sorted (· < ·)

/-! ### Characterization of the skip loop -/

theorem advanceLoop_fst_notMem (cur : Nat) (burned : Finset Nat) :
    (advanceLoop cur burned).1 ∉ (advanceLoop cur burned).2 := by
  generalize hn : burned.card = n
  induction n using Nat.strong_induction_on generalizing cur burned with
  | _ n ih =>
    rw [advanceLoop]
    split
    · next h =>
      exact ih _ (hn ▸ Finset.card_erase_lt_of_mem h) _ _ rfl
    · next h => exact h

/-- Main characterization of `advanceLoop` on states where `burned` stays
clear of the top of the uint64 range (true of every reachable state, since
burned ids are issued ids `< next ≤ 2^64 - 1`): the loop pointer moves
forward to the first non-burned position, the positions stepped over are
exactly the contiguous burned run, and exactly those are deleted. -/
theorem advanceLoop_spec (burned : Finset Nat) (cur : Nat)
    (hB : ∀ q ∈ burned, q < U - 1) :
    cur ≤ (advanceLoop cur burned).1 ∧
    (∀ q, cur ≤ q → q < (advanceLoop cur burned).1 → q ∈ burned) ∧
    (advanceLoop cur burned).2
      = burned.filter (fun q => ¬(cur ≤ q ∧ q < (advanceLoop cur burned).1)) ∧
    (advanceLoop cur burned).1 ∉ burned ∧
    (cur ≤ U - 1 → (advanceLoop cur burned).1 ≤ U - 1) := by
  generalize hn : burned.card = n
  induction n using Nat.strong_induction_on generalizing cur burned with
  | _ n ih =>
    rw [advanceLoop]
    split
    · next h =>
      have hlt : cur < U - 1 := hB cur h
      have hmod : (cur + 1) % U = cur + 1 := by
        apply Nat.mod_eq_of_lt; omega
      have hB' : ∀ q ∈ burned.erase cur, q < U - 1 := fun q hq =>
        hB q (Finset.mem_of_mem_erase hq)
      obtain ⟨ih1, ih2, ih3, ih4, ih5⟩ :=
        ih _ (hn ▸ Finset.card_erase_lt_of_mem h) _ _ hB' rfl
      rw [hmod] at *
      refine ⟨by omega, ?_, ?_, ?_, fun _ => ih5 (by omega)⟩
      · intro q hq1 hq2
        rcases Nat.eq_or_lt_of_le hq1 with rfl | hq1'
        · exact h
        · exact Finset.mem_of_mem_erase (ih2 q hq1' hq2)
      · rw [ih3]
        ext q
        simp only [Finset.mem_filter, Finset.mem_erase]
        constructor
        · rintro ⟨⟨hne, hqb⟩, hnr⟩
          exact ⟨hqb, fun ⟨h1, h2⟩ => hnr ⟨by omega, h2⟩⟩
        · rintro ⟨hqb, hnr⟩
          have hne : q ≠ cur := by
            rintro rfl
            exact hnr ⟨le_refl _, by omega⟩
          exact ⟨⟨hne, hqb⟩, fun ⟨h1, h2⟩ => hnr ⟨by omega, h2⟩⟩
      · intro hmem
        exact ih4 (Finset.mem_erase.mpr ⟨by omega, hmem⟩)
    · next h =>
      refine ⟨le_refl _, fun q hq1 hq2 => absurd hq2 (by omega), ?_, h, fun hc => hc⟩
      rw [Finset.filter_true_of_mem]
      intro q hq
      rintro ⟨h1, h2⟩
      omega

theorem advanceAndWakeNext_eq (s : OMState) :
    advanceAndWakeNext s =
      (⟨s.next, (advanceLoop s.cur s.burned).1,
        if (advanceLoop s.cur s.burned).1 ∈ s.waiters
          then s.waiters.erase (advanceLoop s.cur s.burned).1 else s.waiters,
        (advanceLoop s.cur s.burned).2⟩,
       if (advanceLoop s.cur s.burned).1 ∈ s.waiters
          then some (advanceLoop s.cur s.burned).1 else none) := by
  simp only [advanceAndWakeNext]
  split
  · next h => simp [h]
  · next h => simp [h]

theorem advanceAndWakeNext_next (s : OMState) :
    (advanceAndWakeNext s).1.next = s.next := by
  rw [advanceAndWakeNext_eq]

theorem advanceAndWakeNext_cur (s : OMState) :
    (advanceAndWakeNext s).1.cur = (advanceLoop s.cur s.burned).1 := by
  rw [advanceAndWakeNext_eq]

theorem advanceAndWakeNext_burned (s : OMState) :
    (advanceAndWakeNext s).1.burned = (advanceLoop s.cur s.burned).2 := by
  rw [advanceAndWakeNext_eq]

theorem advanceAndWakeNext_snd (s : OMState) :
    (advanceAndWakeNext s).2
      = if (advanceLoop s.cur s.burned).1 ∈ s.waiters
          then some (advanceLoop s.cur s.burned).1 else none := by
  rw [advanceAndWakeNext_eq]

theorem advanceAndWakeNext_waiters_sub (s : OMState) :
    (advanceAndWakeNext s).1.waiters ⊆ s.waiters := by
  rw [advanceAndWakeNext_eq]
  dsimp only
  split
  · exact Finset.erase_subset _ _
  · exact Finset.Subset.refl _

theorem advanceAndWakeNext_cur_notMem_waiters (s : OMState) :
    (advanceAndWakeNext s).1.cur ∉ (advanceAndWakeNext s).1.waiters := by
  rw [advanceAndWakeNext_eq]
  dsimp only
  split
  · next h => exact Finset.not_mem_erase _ _
  · next h => exact h

theorem advanceAndWakeNext_cur_notMem_burned (s : OMState) :
    (advanceAndWakeNext s).1.cur ∉ (advanceAndWakeNext s).1.burned := by
  rw [advanceAndWakeNext_eq]
  dsimp only
  exact advanceLoop_fst_notMem _ _

theorem returnTicket_resolved (s : OMState) (p : Nat) (h : p < s.cur) :
    returnTicket s p = (s, none) := by
  simp [returnTicket, h]

theorem returnTicket_live (s : OMState) (p : Nat) (h : ¬ p < s.cur) :
    returnTicket s p
      = advanceAndWakeNext ⟨s.next, s.cur, s.waiters.erase p, insert p s.burned⟩ := by
  simp [returnTicket, h]

/-! ### Claim theorems: per-operation behavior -/

/-- C2: one invocation of `advanceAndWakeNext` first steps over exactly the
contiguous run of burned (cancelled) positions starting at `cur` — removing
each from the cancelled set and incrementing `cur` once per removed position
(the number of removed entries equals the distance `cur` moved), stopping at
the first non-cancelled position — and then, if `waiters` holds an entry for
the resulting `cur`, removes that single entry and fires its signal exactly
once; at most one waiter entry is removed and at most one signal fired.
The bound hypothesis says `burned` stays clear of the top of the uint64
range, which holds in every reachable state (burned ids are issued ids). -/
theorem c2_skip_and_wake (s : OMState) (hB : ∀ q ∈ s.burned, q < U - 1) :
    s.cur ≤ (advanceAndWakeNext s).1.cur
    ∧ (∀ q, s.cur ≤ q → q < (advanceAndWakeNext s).1.cur → q ∈ s.burned)
    ∧ (advanceAndWakeNext s).1.cur ∉ s.burned
    ∧ (advanceAndWakeNext s).1.burned
        = s.burned.filter (fun q => ¬(s.cur ≤ q ∧ q < (advanceAndWakeNext s).1.cur))
    ∧ (s.burned \ (advanceAndWakeNext s).1.burned).card
        = (advanceAndWakeNext s).1.cur - s.cur
    ∧ ((advanceAndWakeNext s).1.cur ∈ s.waiters →
        (advanceAndWakeNext s).1.waiters = s.waiters.erase (advanceAndWakeNext s).1.cur
        ∧ (advanceAndWakeNext s).2 = some (advanceAndWakeNext s).1.cur)
    ∧ ((advanceAndWakeNext s).1.cur ∉ s.waiters →
        (advanceAndWakeNext s).1.waiters = s.waiters ∧ (advanceAndWakeNext s).2 = none)
    ∧ (s.waiters \ (advanceAndWakeNext s).1.waiters).card ≤ 1
    ∧ (∀ j j', (advanceAndWakeNext s).2 = some j → (advanceAndWakeNext s).2 = some j' → j = j') := by
  obtain ⟨h1, h2, h3, h4, _⟩ := advanceLoop_spec s.burned s.cur hB
  rw [advanceAndWakeNext_eq]
  set c := (advanceLoop s.cur s.burned).1 with hc
  refine ⟨h1, h2, h4, h3, ?_, ?_, ?_, ?_, ?_⟩
  · -- number of removed burned entries = distance cur moved
    rw [h3]
    have : s.burned \ s.burned.filter (fun q => ¬(s.cur ≤ q ∧ q < c))
        = s.burned.filter (fun q => s.cur ≤ q ∧ q < c) := by
      ext q
      simp only [Finset.mem_sdiff, Finset.mem_filter]
      tauto
    rw [this]
    have : s.burned.filter (fun q => s.cur ≤ q ∧ q < c) = Finset.Ico s.cur c := by
      ext q
      simp only [Finset.mem_filter, Finset.mem_Ico]
      exact ⟨fun ⟨_, hq⟩ => hq, fun hq => ⟨h2 q hq.1 hq.2, hq⟩⟩
    rw [this, Nat.card_Ico]
  · intro hm
    simp [hm]
  · intro hm
    simp [hm]
  · split
    · next hm =>
      calc (s.waiters \ s.waiters.erase c).card ≤ ({c} : Finset Nat).card := by
            apply Finset.card_le_card
            intro q hq
            rw [Finset.mem_sdiff, Finset.mem_erase] at hq
            simp only [Finset.mem_singleton]
            by_contra hne
            exact hq.2 ⟨hne, hq.1⟩
        _ = 1 := Finset.card_singleton c
    · next hm =>
      simp
  · intro j j' hj hj'
    rw [hj] at hj'
    exact Option.some.injEq .. ▸ hj'.symm ▸ rfl

theorem c2_skip_and_wake_witness :
    (∀ q ∈ (⟨3, 0, {1}, {0}⟩ : OMState).burned, q < U - 1) ∧
    (⟨3, 0, {1}, {0}⟩ : OMState).cur ≤ (advanceAndWakeNext ⟨3, 0, {1}, {0}⟩).1.cur :=
  ⟨by decide, (c2_skip_and_wake ⟨3, 0, {1}, {0}⟩ (by decide)).1⟩

/-- C3: `Unlock(t)` checks `id == cur`: with any other id it takes the panic
path (modelled as `none`) and never silently continues; with `id == cur` it
increments `cur` by exactly one and runs `advanceAndWakeNext` on the result.
The hypothesis rules out uint64 wrap of `cur + 1` (cur is an issued id
`< next < 2^64` in every reachable state). -/
theorem c3_release_check (s : OMState) (p : Nat) (hov : s.cur + 1 < U) :
    (p ≠ s.cur → unlock s p = none)
    ∧ (p = s.cur →
        unlock s p = some (advanceAndWakeNext ⟨s.next, s.cur + 1, s.waiters, s.burned⟩)) := by
  have hmod : (s.cur + 1) % U = s.cur + 1 := Nat.mod_eq_of_lt hov
  constructor
  · intro h
    simp [unlock, h]
  · intro h
    subst h
    simp [unlock, hmod]

theorem c3_release_check_witness :
    (0 + 1 < U) ∧ unlock ⟨2, 0, ∅, ∅⟩ 1 = none :=
  ⟨by decide, (c3_release_check ⟨2, 0, ∅, ∅⟩ 1 (by decide)).1 (by decide)⟩

/-- C5: `ReturnTicket` on an already-resolved ticket (`p < cur`) is a no-op:
the state is returned unchanged, no wakeup fires, no panic occurs, and
repeating the call gives the same result. -/
theorem c5_cancel_resolved_noop (s : OMState) (p : Nat) (h : p < s.cur) :
    returnTicket s p = (s, none)
    ∧ returnTicket (returnTicket s p).1 p = (s, none) := by
  have h1 : returnTicket s p = (s, none) := by simp [returnTicket, h]
  exact ⟨h1, by rw [h1]; exact h1⟩

theorem c5_cancel_resolved_noop_witness :
    (0 < (⟨4, 2, {3}, {1}⟩ : OMState).cur) ∧
    returnTicket ⟨4, 2, {3}, {1}⟩ 0 = (⟨4, 2, {3}, {1}⟩, none) :=
  ⟨by decide, (c5_cancel_resolved_noop ⟨4, 2, {3}, {1}⟩ 0 (by decide)).1⟩

/-- C4: `ReturnTicket` on a not-yet-resolved ticket (`cur ≤ p`) marks `p`
burned, deletes `p`'s waiter entry (if any) WITHOUT firing its wakeup (the
fired wakeup, if any, is never for `p`), and then runs `advanceAndWakeNext`;
hence if `p` was the current position, `cur` advances strictly past it, and
any woken position is a non-burned position that was waiting and equals the
new `cur`. The bound hypotheses rule out uint64 wrap (ids are `< next <
2^64` in reachable states). -/
theorem c4_cancel_pending (s : OMState) (p : Nat) (hp : s.cur ≤ p)
    (hB : ∀ q ∈ s.burned, q < U - 1) (hpU : p < U - 1) :
    returnTicket s p
      = advanceAndWakeNext ⟨s.next, s.cur, s.waiters.erase p, insert p s.burned⟩
    ∧ p ∉ (returnTicket s p).1.waiters
    ∧ (returnTicket s p).2 ≠ some p
    ∧ (p = s.cur → p < (returnTicket s p).1.cur)
    ∧ (∀ j, (returnTicket s p).2 = some j →
        j ∉ s.burned ∧ j ∉ (returnTicket s p).1.burned
        ∧ j ∈ s.waiters ∧ j = (returnTicket s p).1.cur) := by
  have hnot : ¬ p < s.cur := by omega
  have hB1 : ∀ q ∈ insert p s.burned, q < U - 1 := by
    intro q hq
    rcases Finset.mem_insert.mp hq with rfl | hq
    · exact hpU
    · exact hB q hq
  have heq : returnTicket s p
      = advanceAndWakeNext ⟨s.next, s.cur, s.waiters.erase p, insert p s.burned⟩ := by
    simp [returnTicket, hnot]
  obtain ⟨h1, h2, h3, h4, _⟩ := advanceLoop_spec (insert p s.burned) s.cur hB1
  have hcp : (advanceLoop s.cur (insert p s.burned)).1 ≠ p := by
    intro hc
    apply h4
    rw [hc]
    exact Finset.mem_insert_self p s.burned
  have hnm := advanceLoop_fst_notMem s.cur (insert p s.burned)
  have hcur : (returnTicket s p).1.cur = (advanceLoop s.cur (insert p s.burned)).1 := by
    rw [heq, advanceAndWakeNext_cur]
  have hburn : (returnTicket s p).1.burned = (advanceLoop s.cur (insert p s.burned)).2 := by
    rw [heq, advanceAndWakeNext_burned]
  have hwsub : (returnTicket s p).1.waiters ⊆ s.waiters.erase p := by
    rw [heq]
    exact advanceAndWakeNext_waiters_sub _
  have hsnd : (returnTicket s p).2
      = if (advanceLoop s.cur (insert p s.burned)).1 ∈ s.waiters.erase p
          then some (advanceLoop s.cur (insert p s.burned)).1 else none := by
    rw [heq, advanceAndWakeNext_snd]
  refine ⟨heq, ?_, ?_, ?_, ?_⟩
  · intro hmem
    exact Finset.not_mem_erase p s.waiters (hwsub hmem)
  · rw [hsnd]
    split
    · next hm =>
      intro hj
      exact hcp (Option.some.inj hj)
    · next hm =>
      intro hj
      cases hj
  · intro hpc
    rw [hcur]
    rcases Nat.lt_or_ge p (advanceLoop s.cur (insert p s.burned)).1 with h | h
    · exact h
    · exfalso
      apply hcp
      omega
  · intro j hj
    rw [hsnd] at hj
    split at hj
    · next hm =>
      cases Option.some.inj hj
      refine ⟨fun hb => h4 (Finset.mem_insert_of_mem hb), ?_,
        Finset.mem_of_mem_erase hm, hcur.symm⟩
      rw [hburn]
      exact hnm
    · next hm =>
      cases hj

theorem c4_cancel_pending_witness :
    ((⟨3, 0, {1}, ∅⟩ : OMState).cur ≤ 0)
    ∧ 0 < (returnTicket ⟨3, 0, {1}, ∅⟩ 0).1.cur :=
  ⟨by decide,
    (c4_cancel_pending ⟨3, 0, {1}, ∅⟩ 0 (by decide) (by decide)
      (by decide)).2.2.2.1 (by decide)⟩

/-- C8: `cur` is monotonically non-decreasing across every operation:
`GetTicket` and `Lock` leave it unchanged, and a successful `Unlock` or any
`ReturnTicket` only ever move it forward. The hypotheses rule out uint64
wrap, which cannot occur in a reachable state (`cur` and all burned ids are
bounded by `next < 2^64`). -/
theorem c8_cur_monotone (s : OMState) (p : Nat)
    (hB : ∀ q ∈ s.burned, q < U - 1) (hcur : s.cur + 1 < U) (hp : p < U - 1) :
    (getTicket s).1.cur = s.cur
    ∧ (lock s p).1.cur = s.cur
    ∧ (∀ r, unlock s p = some r → s.cur ≤ r.1.cur)
    ∧ s.cur ≤ (returnTicket s p).1.cur := by
  refine ⟨rfl, ?_, ?_, ?_⟩
  · unfold lock
    split <;> rfl
  · intro r hr
    unfold unlock at hr
    split at hr
    · next hpc =>
      cases Option.some.inj hr
      rw [advanceAndWakeNext_cur]
      have hmod : (s.cur + 1) % U = s.cur + 1 := Nat.mod_eq_of_lt hcur
      obtain ⟨h1, _, _, _, _⟩ := advanceLoop_spec s.burned ((s.cur + 1) % U) hB
      calc s.cur ≤ (s.cur + 1) % U := by omega
        _ ≤ _ := h1
    · cases hr
  · unfold returnTicket
    split
    · next h => exact le_refl _
    · next h =>
      rw [advanceAndWakeNext_cur]
      have hB1 : ∀ q ∈ insert p s.burned, q < U - 1 := by
        intro q hq
        rcases Finset.mem_insert.mp hq with rfl | hq
        · exact hp
        · exact hB q hq
      exact (advanceLoop_spec (insert p s.burned) s.cur hB1).1

theorem c8_cur_monotone_witness :
    ((∀ q ∈ (⟨1, 0, ∅, ∅⟩ : OMState).burned, q < U - 1)
      ∧ 0 + 1 < U ∧ (0 : Nat) < U - 1)
    ∧ (getTicket ⟨1, 0, ∅, ∅⟩).1.cur = 0 :=
  ⟨⟨by decide, by decide, by decide⟩,
    (c8_cur_monotone ⟨1, 0, ∅, ∅⟩ 0 (by decide) (by decide) (by decide)).1⟩

theorem issueN_next (k : Nat) (hk : k < U) : (issueN k).next = k := by
  induction k with
  | zero => rfl
  | succ n ih =>
    have hn : (issueN n).next = n := ih (by omega)
    show ((issueN n).next + 1) % U = n + 1
    rw [hn]
    exact Nat.mod_eq_of_lt hk

theorem getTicket_val (s : OMState) (h : s.next < U) : (getTicket s).2 = s.next := by
  show ((s.next + 1) % U + (U - 1)) % U = s.next
  rcases Nat.lt_or_ge (s.next + 1) U with h1 | h1
  · rw [Nat.mod_eq_of_lt h1]
    have : s.next + 1 + (U - 1) = s.next + U := by
      have : 1 ≤ U := Nat.one_le_two_pow
      omega
    rw [this, Nat.add_mod_right]
    exact Nat.mod_eq_of_lt h
  · have h2 : s.next + 1 = U := by omega
    have h3 : (s.next + 1) % U = 0 := by rw [h2, Nat.mod_self]
    rw [h3, Nat.zero_add]
    have h4 : U - 1 < U := by omega
    rw [Nat.mod_eq_of_lt h4]
    omega

/-- C9: `GetTicket` hands out ids 0, 1, 2, … in strict issuance order: a
fresh instance returns 0, and after k issuances the next call returns
exactly k (so each call returns one more than the previous call and every
value is unique); no operation other than `GetTicket` modifies `next`.
The hypothesis k < 2^64 is the spec's out-of-scope bound on exhausting the
uint64 counter. -/
theorem c9_issue_sequence (k : Nat) (hk : k < U) :
    (getTicket initState).2 = 0
    ∧ (getTicket (issueN k)).2 = k
    ∧ (∀ s p, (lock s p).1.next = s.next)
    ∧ (∀ s p r, unlock s p = some r → r.1.next = s.next)
    ∧ (∀ s p, (returnTicket s p).1.next = s.next) := by
  refine ⟨rfl, ?_, ?_, ?_, ?_⟩
  · rw [getTicket_val _ (by rw [issueN_next k hk]; exact hk), issueN_next k hk]
  · intro s p
    unfold lock
    split <;> rfl
  · intro s p r hr
    unfold unlock at hr
    split at hr
    · cases Option.some.inj hr
      exact advanceAndWakeNext_next _
    · cases hr
  · intro s p
    unfold returnTicket
    split
    · rfl
    · exact advanceAndWakeNext_next _

theorem c9_issue_sequence_witness :
    (5 < U) ∧ (getTicket (issueN 5)).2 = 5 :=
  ⟨by decide, (c9_issue_sequence 5 (by decide)).2.1⟩

/-- C10: `ReturnTicket` is idempotent for every position, not only already
resolved ones: a second call in immediate succession finds the burn flag
already set (or the position already passed), no waiter entry, and nothing
to skip or wake, so it leaves the state exactly as after the first call and
fires no wakeup. The bound hypotheses rule out uint64 wrap (unreachable:
all ids are `< next < 2^64`). -/
theorem c10_cancel_idempotent (s : OMState) (p : Nat)
    (hB : ∀ q ∈ s.burned, q < U - 1) (hpU : p < U - 1) :
    returnTicket (returnTicket s p).1 p = ((returnTicket s p).1, none) := by
  by_cases h : p < s.cur
  · have h1 : returnTicket s p = (s, none) := returnTicket_resolved s p h
    rw [h1]
    exact h1
  · have hB1 : ∀ q ∈ insert p s.burned, q < U - 1 := by
      intro q hq
      rcases Finset.mem_insert.mp hq with rfl | hq
      · exact hpU
      · exact hB q hq
    have heq := returnTicket_live s p h
    obtain ⟨h1, h2, h3, h4, _⟩ := advanceLoop_spec (insert p s.burned) s.cur hB1
    have hcur : (returnTicket s p).1.cur = (advanceLoop s.cur (insert p s.burned)).1 := by
      rw [heq, advanceAndWakeNext_cur]
    have hburn : (returnTicket s p).1.burned
        = (advanceLoop s.cur (insert p s.burned)).2 := by
      rw [heq, advanceAndWakeNext_burned]
    have hwsub : (returnTicket s p).1.waiters ⊆ s.waiters.erase p := by
      rw [heq]
      exact advanceAndWakeNext_waiters_sub _
    by_cases h2' : p < (advanceLoop s.cur (insert p s.burned)).1
    · exact returnTicket_resolved _ p (by rw [hcur]; exact h2')
    · have hpb : p ∈ (returnTicket s p).1.burned := by
        rw [hburn, h3]
        rw [Finset.mem_filter]
        exact ⟨Finset.mem_insert_self p s.burned, fun hq => h2' hq.2⟩
      have hpw : p ∉ (returnTicket s p).1.waiters := fun hm =>
        Finset.not_mem_erase p s.waiters (hwsub hm)
      have hcw : (returnTicket s p).1.cur ∉ (returnTicket s p).1.waiters := by
        rw [heq]
        exact advanceAndWakeNext_cur_notMem_waiters _
      have hcb : (returnTicket s p).1.cur ∉ (returnTicket s p).1.burned := by
        rw [heq]
        exact advanceAndWakeNext_cur_notMem_burned _
      rw [returnTicket_live _ p (by rw [hcur]; exact h2'),
        Finset.erase_eq_of_not_mem hpw, Finset.insert_eq_self.mpr hpb]
      have hloop : advanceLoop (returnTicket s p).1.cur (returnTicket s p).1.burned
          = ((returnTicket s p).1.cur, (returnTicket s p).1.burned) := by
        rw [advanceLoop]
        exact dif_neg hcb
      rw [advanceAndWakeNext_eq]
      dsimp only
      rw [hloop]
      dsimp only
      rw [if_neg hcw, if_neg hcw]

/-- Master lemma: effect of one `advanceAndWakeNext` call on a state whose
fields are consistent with the per-ticket statuses. Used for the `Unlock`
and `ReturnTicket` cases of invariant preservation. -/
theorem wakeStep_spec (st : OMState) (status : Nat → TStatus)
    (H1 : ∀ q, status q = .parked ↔ q ∈ st.waiters)
    (H2 : ∀ q, q ∈ st.burned ↔ (status q = .cancelled ∧ st.cur ≤ q))
    (H3 : ∀ q, status q = .pending → st.cur ≤ q)
    (H4 : ∀ q, status q = .parked → st.cur ≤ q)
    (H5 : ∀ q, status q = .inside → q = st.cur)
    (H6 : ∀ q, status q = .released → q < st.cur)
    (HB : ∀ q ∈ st.burned, q < st.next)
    (H7 : st.cur ≤ st.next) (HU : st.next < U) :
    (advanceAndWakeNext st).1.next = st.next
    ∧ st.cur ≤ (advanceAndWakeNext st).1.cur
    ∧ (advanceAndWakeNext st).1.cur ≤ st.next
    ∧ (∀ q, applyWake status (advanceAndWakeNext st).2 q = .parked
        ↔ q ∈ (advanceAndWakeNext st).1.waiters)
    ∧ (∀ q, q ∈ (advanceAndWakeNext st).1.burned
        ↔ (applyWake status (advanceAndWakeNext st).2 q = .cancelled
            ∧ (advanceAndWakeNext st).1.cur ≤ q))
    ∧ (∀ q, applyWake status (advanceAndWakeNext st).2 q = .pending
        → (advanceAndWakeNext st).1.cur ≤ q)
    ∧ (∀ q, applyWake status (advanceAndWakeNext st).2 q = .inside
        → q = (advanceAndWakeNext st).1.cur)
    ∧ (∀ q, applyWake status (advanceAndWakeNext st).2 q = .released
        → q < (advanceAndWakeNext st).1.cur)
    ∧ (∀ q, applyWake status (advanceAndWakeNext st).2 q = .parked
        → (advanceAndWakeNext st).1.cur < q)
    ∧ (∀ j, (advanceAndWakeNext st).2 = some j
        → j = (advanceAndWakeNext st).1.cur ∧ status j = .parked)
    ∧ ((advanceAndWakeNext st).2 = none
        → applyWake status (advanceAndWakeNext st).2 = status) := by
  have hU1 : (1 : Nat) ≤ U := Nat.one_le_two_pow
  have hBU : ∀ q ∈ st.burned, q < U - 1 := by
    intro q hq
    have := HB q hq
    omega
  obtain ⟨h1, h2, h3, h4, _⟩ := advanceLoop_spec st.burned st.cur hBU
  have hfn := advanceLoop_fst_notMem st.cur st.burned
  rcases hA : advanceLoop st.cur st.burned with ⟨c, b⟩
  rw [hA] at h1 h2 h3 h4 hfn
  dsimp only at h1 h2 h3 h4 hfn
  have hEq : advanceAndWakeNext st
      = (⟨st.next, c, if c ∈ st.waiters then st.waiters.erase c else st.waiters, b⟩,
         if c ∈ st.waiters then some c else none) := by
    rw [advanceAndWakeNext_eq, hA]
  have hcNext : c ≤ st.next := by
    rcases Nat.eq_or_lt_of_le h1 with h | h
    · omega
    · have : c - 1 ∈ st.burned := h2 (c - 1) (by omega) (by omega)
      have := HB _ this
      omega
  have hbMem : ∀ q, q ∈ b ↔ (status q = .cancelled ∧ c ≤ q) := by
    intro q
    rw [h3, Finset.mem_filter, H2 q]
    constructor
    · rintro ⟨⟨hc, hq⟩, hn⟩
      refine ⟨hc, ?_⟩
      by_contra hlt
      exact hn ⟨hq, by omega⟩
    · rintro ⟨hc, hq⟩
      exact ⟨⟨hc, by omega⟩, fun hr => by omega⟩
  have hPend : ∀ q, status q = .pending → c ≤ q := by
    intro q hq
    have := H3 q hq
    by_contra hlt
    have := (H2 q).mp (h2 q this (by omega))
    rw [hq] at this
    cases this.1
  have hParkGe : ∀ q, status q = .parked → c ≤ q := by
    intro q hq
    have := H4 q hq
    by_contra hlt
    have := (H2 q).mp (h2 q this (by omega))
    rw [hq] at this
    cases this.1
  have hRel : ∀ q, status q = .released → q < c := by
    intro q hq
    have := H6 q hq
    omega
  have hIns : ∀ q, status q = .inside → q = st.cur ∧ c = st.cur := by
    intro q hq
    have hqc := H5 q hq
    refine ⟨hqc, ?_⟩
    rcases Nat.eq_or_lt_of_le h1 with h | h
    · omega
    · exfalso
      have := (H2 st.cur).mp (h2 st.cur (le_refl _) h)
      rw [hqc] at hq
      rw [hq] at this
      cases this.1
  rw [hEq]
  dsimp only
  by_cases hw : c ∈ st.waiters
  · rw [if_pos hw, if_pos hw]
    have hcPark : status c = .parked := (H1 c).mpr hw
    refine ⟨rfl, h1, hcNext, ?_, ?_, ?_, ?_, ?_, ?_, ?_, ?_⟩
    · intro q
      rcases eq_or_ne q c with rfl | hne
      · simp [applyWake, Function.update_same]
      · simp only [applyWake, Function.update_noteq hne, H1 q, Finset.mem_erase]
        exact ⟨fun h => ⟨hne, h⟩, fun h => h.2⟩
    · intro q
      rcases eq_or_ne q c with rfl | hne
      · simp only [applyWake, Function.update_same]
        constructor
        · intro h
          exact absurd h hfn
        · rintro ⟨h, -⟩
          cases h
      · rw [applyWake, Function.update_noteq hne]
        exact hbMem q
    · intro q
      rcases eq_or_ne q c with rfl | hne
      · simp [applyWake]
      · rw [applyWake, Function.update_noteq hne]
        exact hPend q
    · intro q
      rcases eq_or_ne q c with rfl | hne
      · intro _
        rfl
      · intro h
        rw [applyWake, Function.update_noteq hne] at h
        obtain ⟨hq1, hq2⟩ := hIns q h
        omega
    · intro q
      rcases eq_or_ne q c with rfl | hne
      · simp [applyWake]
      · rw [applyWake, Function.update_noteq hne]
        exact hRel q
    · intro q
      rcases eq_or_ne q c with rfl | hne
      · simp [applyWake]
      · intro h
        rw [applyWake, Function.update_noteq hne] at h
        have := hParkGe q h
        omega
    · intro j hj
      cases Option.some.inj hj
      exact ⟨rfl, hcPark⟩
    · intro h
      cases h
  · rw [if_neg hw, if_neg hw]
    refine ⟨rfl, h1, hcNext, ?_, hbMem, hPend, ?_, hRel, ?_, ?_, ?_⟩
    · intro q
      rw [applyWake]
      exact H1 q
    · intro q hq
      rw [applyWake] at hq
      obtain ⟨hq1, hq2⟩ := hIns q hq
      omega
    · intro q hq
      rw [applyWake] at hq
      have := hParkGe q hq
      rcases Nat.eq_or_lt_of_le this with h | h
      · exact absurd ((H1 q).mp hq) (h ▸ hw)
      · exact h
    · intro j hj
      cases hj
    · intro _
      rfl

theorem getTicket_fst (s : OMState) :
    (getTicket s).1 = ⟨(s.next + 1) % U, s.cur, s.waiters, s.burned⟩ := rfl

theorem lock_eq_true (s : OMState) (i : Nat) (st' : OMState)
    (h : lock s i = (st', true)) : st' = s ∧ i = s.cur := by
  unfold lock at h
  split at h
  · next hc =>
    injection h with h1 h2
    exact ⟨h1.symm, hc⟩
  · next hc =>
    injection h with h1 h2
    cases h2

theorem lock_eq_false (s : OMState) (i : Nat) (st' : OMState)
    (h : lock s i = (st', false)) :
    st' = ⟨s.next, s.cur, insert i s.waiters, s.burned⟩ ∧ i ≠ s.cur := by
  unfold lock at h
  split at h
  · next hc =>
    injection h with h1 h2
    cases h2
  · next hc =>
    injection h with h1 h2
    exact ⟨h1.symm, hc⟩

theorem unlock_eq_some (s : OMState) (i : Nat) (r : OMState × Option Nat)
    (h : unlock s i = some r) :
    i = s.cur ∧ advanceAndWakeNext ⟨s.next, (s.cur + 1) % U, s.waiters, s.burned⟩ = r := by
  unfold unlock at h
  split at h
  · next hc =>
    exact ⟨hc, Option.some.inj h⟩
  · next hc =>
    cases h

theorem inv_init (fate : Nat → Bool) : Inv fate initConfig := by
  refine ⟨?_, ?_, ?_, ?_, ?_, ?_, ?_, ?_, ?_, ?_, ?_, ?_, ?_⟩ <;>
    first
      | exact Nat.one_le_two_pow
      | exact le_refl 0
      | exact List.sorted_nil
      | (intro i; simp [initConfig, initState])

theorem inv_step_issue (fate : Nat → Bool) (c : Config) (hinv : Inv fate c)
    (h : c.st.next + 1 < U) :
    Inv fate ⟨(getTicket c.st).1,
      Function.update c.status (getTicket c.st).2 .pending, c.adm⟩ := by
  obtain ⟨next_lt, cur_le, issued_iff, parked_iff, burned_iff, inside_cur, released_lt,
    pending_ge, parked_gt, fate_burn, fate_live, adm_mem, adm_sorted⟩ := hinv
  have hid : (getTicket c.st).2 = c.st.next := getTicket_val c.st next_lt
  have hmod : (c.st.next + 1) % U = c.st.next + 1 := Nat.mod_eq_of_lt h
  have hnI : c.status c.st.next = .notIssued := by
    by_contra hc
    exact absurd ((issued_iff _).mp hc) (lt_irrefl _)
  have hnW : c.st.next ∉ c.st.waiters := fun hm => by
    have := (parked_iff _).mpr hm
    rw [hnI] at this
    cases this
  have hnB : c.st.next ∉ c.st.burned := fun hm => by
    have := ((burned_iff _).mp hm).1
    rw [hnI] at this
    cases this
  have hnA : c.st.next ∉ c.adm := fun hm => by
    rcases (adm_mem _).mp hm with hc | hc <;> (rw [hnI] at hc; cases hc)
  rw [hid, getTicket_fst, hmod]
  refine ⟨h, by dsimp only; omega, ?_, ?_, ?_, ?_, ?_, ?_, ?_, ?_, ?_, ?_, adm_sorted⟩
  · intro i
    dsimp only
    rcases eq_or_ne i c.st.next with rfl | hne
    · rw [Function.update_same]
      constructor
      · intro _
        omega
      · intro _ hc
        cases hc
    · rw [Function.update_noteq hne, issued_iff i]
      omega
  · intro i
    dsimp only
    rcases eq_or_ne i c.st.next with rfl | hne
    · rw [Function.update_same]
      constructor
      · intro hc
        cases hc
      · intro hm
        exact absurd hm hnW
    · rw [Function.update_noteq hne]
      exact parked_iff i
  · intro i
    dsimp only
    rcases eq_or_ne i c.st.next with rfl | hne
    · rw [Function.update_same]
      constructor
      · intro hm
        exact absurd hm hnB
      · rintro ⟨hc, -⟩
        cases hc
    · rw [Function.update_noteq hne]
      exact burned_iff i
  · intro i
    dsimp only
    rcases eq_or_ne i c.st.next with rfl | hne
    · rw [Function.update_same]
      intro hc
      cases hc
    · rw [Function.update_noteq hne]
      exact inside_cur i
  · intro i
    dsimp only
    rcases eq_or_ne i c.st.next with rfl | hne
    · rw [Function.update_same]
      intro hc
      cases hc
    · rw [Function.update_noteq hne]
      exact released_lt i
  · intro i
    dsimp only
    rcases eq_or_ne i c.st.next with rfl | hne
    · rw [Function.update_same]
      intro _
      exact cur_le
    · rw [Function.update_noteq hne]
      exact pending_ge i
  · intro i
    dsimp only
    rcases eq_or_ne i c.st.next with rfl | hne
    · rw [Function.update_same]
      intro hc
      cases hc
    · rw [Function.update_noteq hne]
      exact parked_gt i
  · intro i
    dsimp only
    rcases eq_or_ne i c.st.next with rfl | hne
    · rw [Function.update_same]
      intro hc
      cases hc
    · rw [Function.update_noteq hne]
      exact fate_burn i
  · intro i
    dsimp only
    rcases eq_or_ne i c.st.next with rfl | hne
    · rw [Function.update_same]
      rintro (hc | hc | hc) <;> cases hc
    · rw [Function.update_noteq hne]
      exact fate_live i
  · intro i
    dsimp only
    rcases eq_or_ne i c.st.next with rfl | hne
    · rw [Function.update_same]
      constructor
      · intro hm
        exact absurd hm hnA
      · rintro (hc | hc) <;> cases hc
    · rw [Function.update_noteq hne]
      exact adm_mem i

theorem inv_step_lockFast (fate : Nat → Bool) (c : Config) (i : Nat) (st' : OMState)
    (hinv : Inv fate c) (hf : fate i = false) (hs : c.status i = .pending)
    (hl : lock c.st i = (st', true)) :
    Inv fate ⟨st', Function.update c.status i .inside, c.adm ++ [i]⟩ := by
  obtain ⟨next_lt, cur_le, issued_iff, parked_iff, burned_iff, inside_cur, released_lt,
    pending_ge, parked_gt, fate_burn, fate_live, adm_mem, adm_sorted⟩ := hinv
  obtain ⟨hst, hic⟩ := lock_eq_true c.st i st' hl
  subst hst
  have hiN : i < c.st.next := (issued_iff i).mp (by rw [hs]; intro hc; cases hc)
  have hiW : i ∉ c.st.waiters := fun hm => by
    have := (parked_iff i).mpr hm
    rw [hs] at this
    cases this
  have hiB : i ∉ c.st.burned := fun hm => by
    have := ((burned_iff i).mp hm).1
    rw [hs] at this
    cases this
  have hiA : i ∉ c.adm := fun hm => by
    rcases (adm_mem i).mp hm with hc | hc <;> (rw [hs] at hc; cases hc)
  refine ⟨next_lt, cur_le, ?_, ?_, ?_, ?_, ?_, ?_, ?_, ?_, ?_, ?_, ?_⟩
  · intro q
    dsimp only
    rcases eq_or_ne q i with rfl | hne
    · rw [Function.update_same]
      exact ⟨fun _ => hiN, fun _ hc => by cases hc⟩
    · rw [Function.update_noteq hne]
      exact issued_iff q
  · intro q
    dsimp only
    rcases eq_or_ne q i with rfl | hne
    · rw [Function.update_same]
      exact ⟨fun hc => (nomatch hc), fun hm => absurd hm hiW⟩
    · rw [Function.update_noteq hne]
      exact parked_iff q
  · intro q
    dsimp only
    rcases eq_or_ne q i with rfl | hne
    · rw [Function.update_same]
      exact ⟨fun hm => absurd hm hiB, fun h => (nomatch h.1)⟩
    · rw [Function.update_noteq hne]
      exact burned_iff q
  · intro q
    dsimp only
    rcases eq_or_ne q i with rfl | hne
    · rw [Function.update_same]
      intro _
      exact hic
    · rw [Function.update_noteq hne]
      exact inside_cur q
  · intro q
    dsimp only
    rcases eq_or_ne q i with rfl | hne
    · rw [Function.update_same]
      intro hc
      cases hc
    · rw [Function.update_noteq hne]
      exact released_lt q
  · intro q
    dsimp only
    rcases eq_or_ne q i with rfl | hne
    · rw [Function.update_same]
      intro hc
      cases hc
    · rw [Function.update_noteq hne]
      exact pending_ge q
  · intro q
    dsimp only
    rcases eq_or_ne q i with rfl | hne
    · rw [Function.update_same]
      intro hc
      cases hc
    · rw [Function.update_noteq hne]
      exact parked_gt q
  · intro q
    dsimp only
    rcases eq_or_ne q i with rfl | hne
    · rw [Function.update_same]
      intro hc
      cases hc
    · rw [Function.update_noteq hne]
      exact fate_burn q
  · intro q
    dsimp only
    rcases eq_or_ne q i with rfl | hne
    · rw [Function.update_same]
      intro _
      exact hf
    · rw [Function.update_noteq hne]
      exact fate_live q
  · intro q
    dsimp only
    rw [List.mem_append, List.mem_singleton]
    rcases eq_or_ne q i with rfl | hne
    · rw [Function.update_same]
      exact ⟨fun _ => Or.inl rfl, fun _ => Or.inr rfl⟩
    · rw [Function.update_noteq hne]
      constructor
      · rintro (hm | rfl)
        · exact (adm_mem q).mp hm
        · exact absurd rfl hne
      · intro hq
        exact Or.inl ((adm_mem q).mpr hq)
  · dsimp only
    refine List.pairwise_append.mpr ⟨adm_sorted, List.sorted_singleton _, ?_⟩
    intro x hx b hb
    rw [List.mem_singleton] at hb
    subst hb
    rcases (adm_mem x).mp hx with hc | hc
    · exfalso
      have := inside_cur x hc
      rw [← hic] at this
      subst this
      rw [hs] at hc
      cases hc
    · have := released_lt x hc
      omega

theorem inv_step_lockPark (fate : Nat → Bool) (c : Config) (i : Nat) (st' : OMState)
    (hinv : Inv fate c) (hf : fate i = false) (hs : c.status i = .pending)
    (hl : lock c.st i = (st', false)) :
    Inv fate ⟨st', Function.update c.status i .parked, c.adm⟩ := by
  obtain ⟨next_lt, cur_le, issued_iff, parked_iff, burned_iff, inside_cur, released_lt,
    pending_ge, parked_gt, fate_burn, fate_live, adm_mem, adm_sorted⟩ := hinv
  obtain ⟨hst, hic⟩ := lock_eq_false c.st i st' hl
  subst hst
  have hiN : i < c.st.next := (issued_iff i).mp (by rw [hs]; intro hc; cases hc)
  have hiB : i ∉ c.st.burned := fun hm => by
    have := ((burned_iff i).mp hm).1
    rw [hs] at this
    cases this
  have hiA : i ∉ c.adm := fun hm => by
    rcases (adm_mem i).mp hm with hc | hc <;> (rw [hs] at hc; cases hc)
  have hicur : c.st.cur < i := by
    have := pending_ge i hs
    omega
  refine ⟨next_lt, cur_le, ?_, ?_, ?_, ?_, ?_, ?_, ?_, ?_, ?_, ?_, adm_sorted⟩
  · intro q
    dsimp only
    rcases eq_or_ne q i with rfl | hne
    · rw [Function.update_same]
      exact ⟨fun _ => hiN, fun _ hc => by cases hc⟩
    · rw [Function.update_noteq hne]
      exact issued_iff q
  · intro q
    dsimp only
    rcases eq_or_ne q i with rfl | hne
    · rw [Function.update_same]
      exact ⟨fun _ => Finset.mem_insert_self _ _, fun _ => rfl⟩
    · rw [Function.update_noteq hne, Finset.mem_insert]
      constructor
      · intro hq
        exact Or.inr ((parked_iff q).mp hq)
      · rintro (rfl | hm)
        · exact absurd rfl hne
        · exact (parked_iff q).mpr hm
  · intro q
    dsimp only
    rcases eq_or_ne q i with rfl | hne
    · rw [Function.update_same]
      exact ⟨fun hm => absurd hm hiB, fun h => by cases h.1⟩
    · rw [Function.update_noteq hne]
      exact burned_iff q
  · intro q
    dsimp only
    rcases eq_or_ne q i with rfl | hne
    · rw [Function.update_same]
      intro hc
      cases hc
    · rw [Function.update_noteq hne]
      exact inside_cur q
  · intro q
    dsimp only
    rcases eq_or_ne q i with rfl | hne
    · rw [Function.update_same]
      intro hc
      cases hc
    · rw [Function.update_noteq hne]
      exact released_lt q
  · intro q
    dsimp only
    rcases eq_or_ne q i with rfl | hne
    · rw [Function.update_same]
      intro hc
      cases hc
    · rw [Function.update_noteq hne]
      exact pending_ge q
  · intro q
    dsimp only
    rcases eq_or_ne q i with rfl | hne
    · rw [Function.update_same]
      intro _
      exact hicur
    · rw [Function.update_noteq hne]
      exact parked_gt q
  · intro q
    dsimp only
    rcases eq_or_ne q i with rfl | hne
    · rw [Function.update_same]
      intro hc
      cases hc
    · rw [Function.update_noteq hne]
      exact fate_burn q
  · intro q
    dsimp only
    rcases eq_or_ne q i with rfl | hne
    · rw [Function.update_same]
      intro _
      exact hf
    · rw [Function.update_noteq hne]
      exact fate_live q
  · intro q
    dsimp only
    rcases eq_or_ne q i with rfl | hne
    · rw [Function.update_same]
      exact ⟨fun hm => absurd hm hiA, fun hq => by rcases hq with hc | hc <;> cases hc⟩
    · rw [Function.update_noteq hne]
      exact adm_mem q

theorem inv_step_unlock (fate : Nat → Bool) (c : Config) (i : Nat) (st' : OMState)
    (w : Option Nat) (hinv : Inv fate c) (hs : c.status i = .inside)
    (hu : unlock c.st i = some (st', w)) :
    Inv fate ⟨st', applyWake (Function.update c.status i .released) w,
      c.adm ++ w.toList⟩ := by
  obtain ⟨next_lt, cur_le, issued_iff, parked_iff, burned_iff, inside_cur, released_lt,
    pending_ge, parked_gt, fate_burn, fate_live, adm_mem, adm_sorted⟩ := hinv
  obtain ⟨hic, hr⟩ := unlock_eq_some c.st i (st', w) hu
  have hiN : i < c.st.next := (issued_iff i).mp (by rw [hs]; intro hc; cases hc)
  have hmod : (c.st.cur + 1) % U = c.st.cur + 1 := Nat.mod_eq_of_lt (by omega)
  rw [hmod] at hr
  have hiW : i ∉ c.st.waiters := fun hm => by
    have := (parked_iff i).mpr hm
    rw [hs] at this
    cases this
  have hiB : i ∉ c.st.burned := fun hm => by
    have := ((burned_iff i).mp hm).1
    rw [hs] at this
    cases this
  have H1 : ∀ q, Function.update c.status i TStatus.released q = .parked
      ↔ q ∈ c.st.waiters := by
    intro q
    rcases eq_or_ne q i with rfl | hne
    · rw [Function.update_same]
      exact ⟨fun hc => (nomatch hc), fun hm => absurd hm hiW⟩
    · rw [Function.update_noteq hne]
      exact parked_iff q
  have H2 : ∀ q, q ∈ c.st.burned
      ↔ (Function.update c.status i TStatus.released q = .cancelled
          ∧ c.st.cur + 1 ≤ q) := by
    intro q
    rcases eq_or_ne q i with rfl | hne
    · rw [Function.update_same]
      exact ⟨fun hm => absurd hm hiB, fun h => (nomatch h.1)⟩
    · rw [Function.update_noteq hne, burned_iff q]
      constructor
      · rintro ⟨hc, hq⟩
        exact ⟨hc, by omega⟩
      · rintro ⟨hc, hq⟩
        exact ⟨hc, by omega⟩
  have H3 : ∀ q, Function.update c.status i TStatus.released q = .pending
      → c.st.cur + 1 ≤ q := by
    intro q hq
    rcases eq_or_ne q i with rfl | hne
    · rw [Function.update_same] at hq
      cases hq
    · rw [Function.update_noteq hne] at hq
      have := pending_ge q hq
      omega
  have H4 : ∀ q, Function.update c.status i TStatus.released q = .parked
      → c.st.cur + 1 ≤ q := by
    intro q hq
    rcases eq_or_ne q i with rfl | hne
    · rw [Function.update_same] at hq
      cases hq
    · rw [Function.update_noteq hne] at hq
      have := parked_gt q hq
      omega
  have H5 : ∀ q, Function.update c.status i TStatus.released q = .inside
      → q = c.st.cur + 1 := by
    intro q hq
    rcases eq_or_ne q i with rfl | hne
    · rw [Function.update_same] at hq
      cases hq
    · rw [Function.update_noteq hne] at hq
      exact absurd ((inside_cur q hq).trans hic.symm) hne
  have H6 : ∀ q, Function.update c.status i TStatus.released q = .released
      → q < c.st.cur + 1 := by
    intro q hq
    rcases eq_or_ne q i with rfl | hne
    · omega
    · rw [Function.update_noteq hne] at hq
      have := released_lt q hq
      omega
  have HB : ∀ q ∈ c.st.burned, q < c.st.next := by
    intro q hm
    have hc := ((burned_iff q).mp hm).1
    exact (issued_iff q).mp (by rw [hc]; intro h2; cases h2)
  have H7 : c.st.cur + 1 ≤ c.st.next := by omega
  obtain ⟨m1, m2, m3, m4, m5, m6, m7, m8, m9, m10, m11⟩ :=
    wakeStep_spec ⟨c.st.next, c.st.cur + 1, c.st.waiters, c.st.burned⟩
      (Function.update c.status i .released) H1 H2 H3 H4 H5 H6 HB H7 next_lt
  rw [hr] at m1 m2 m3 m4 m5 m6 m7 m8 m9 m10 m11
  dsimp only at m1 m2 m3 m4 m5 m6 m7 m8 m9 m10 m11
  rcases w with - | j
  · -- no wakeup fired
    refine ⟨by dsimp only; rw [m1]; exact next_lt,
      by dsimp only; rw [← m1] at m3; exact m3,
      ?_, m4, m5, m7, m8, m6, m9, ?_, ?_, ?_, ?_⟩
    · intro q
      dsimp only [applyWake]
      rw [m1]
      rcases eq_or_ne q i with rfl | hne
      · rw [Function.update_same]
        exact ⟨fun _ => hiN, fun _ hc => by cases hc⟩
      · rw [Function.update_noteq hne]
        exact issued_iff q
    · intro q hq
      dsimp only [applyWake] at hq
      rcases eq_or_ne q i with rfl | hne
      · rw [Function.update_same] at hq
        cases hq
      · rw [Function.update_noteq hne] at hq
        exact fate_burn q hq
    · intro q hq
      dsimp only [applyWake] at hq
      rcases eq_or_ne q i with rfl | hne
      · exact fate_live q (Or.inl hs)
      · rw [Function.update_noteq hne] at hq
        exact fate_live q hq
    · intro q
      dsimp only [applyWake, Option.toList]
      rw [List.append_nil]
      rcases eq_or_ne q i with rfl | hne
      · rw [Function.update_same]
        constructor
        · intro _
          exact Or.inr rfl
        · intro _
          exact (adm_mem q).mpr (Or.inl hs)
      · rw [Function.update_noteq hne]
        exact adm_mem q
    · dsimp only [Option.toList]
      rw [List.append_nil]
      exact adm_sorted
  · -- a waiter j was woken
    obtain ⟨hjc, hjp⟩ := m10 j rfl
    have hjne : j ≠ i := by
      intro hji
      rw [hji, Function.update_same] at hjp
      cases hjp
    have hjPark : c.status j = .parked := by
      rw [Function.update_noteq hjne] at hjp
      exact hjp
    have hjN : j < c.st.next := (issued_iff j).mp (by rw [hjPark]; intro hc; cases hc)
    have hjA : j ∉ c.adm := fun hm => by
      rcases (adm_mem j).mp hm with hc | hc <;> (rw [hjPark] at hc; cases hc)
    have hjgt : c.st.cur < j := parked_gt j hjPark
    refine ⟨by dsimp only; rw [m1]; exact next_lt,
      by dsimp only; rw [← m1] at m3; exact m3,
      ?_, m4, m5, m7, m8, m6, m9, ?_, ?_, ?_, ?_⟩
    · intro q
      dsimp only [applyWake]
      rw [m1]
      rcases eq_or_ne q j with rfl | hnej
      · rw [Function.update_same]
        exact ⟨fun _ => hjN, fun _ hc => by cases hc⟩
      · rw [Function.update_noteq hnej]
        rcases eq_or_ne q i with rfl | hne
        · rw [Function.update_same]
          exact ⟨fun _ => hiN, fun _ hc => by cases hc⟩
        · rw [Function.update_noteq hne]
          exact issued_iff q
    · intro q hq
      dsimp only [applyWake] at hq
      rcases eq_or_ne q j with rfl | hnej
      · rw [Function.update_same] at hq
        cases hq
      · rw [Function.update_noteq hnej] at hq
        rcases eq_or_ne q i with rfl | hne
        · rw [Function.update_same] at hq
          cases hq
        · rw [Function.update_noteq hne] at hq
          exact fate_burn q hq
    · intro q hq
      dsimp only [applyWake] at hq
      rcases eq_or_ne q j with rfl | hnej
      · exact fate_live q (Or.inr (Or.inr hjPark))
      · rcases eq_or_ne q i with rfl | hne
        · exact fate_live q (Or.inl hs)
        · rw [Function.update_noteq hnej, Function.update_noteq hne] at hq
          exact fate_live q hq
    · intro q
      dsimp only [applyWake, Option.toList]
      rw [List.mem_append, List.mem_singleton]
      rcases eq_or_ne q j with rfl | hnej
      · rw [Function.update_same]
        exact ⟨fun _ => Or.inl rfl, fun _ => Or.inr rfl⟩
      · rw [Function.update_noteq hnej]
        rcases eq_or_ne q i with rfl | hne
        · rw [Function.update_same]
          constructor
          · intro _
            exact Or.inr rfl
          · intro _
            exact Or.inl ((adm_mem q).mpr (Or.inl hs))
        · rw [Function.update_noteq hne]
          constructor
          · rintro (hm | rfl)
            · exact (adm_mem q).mp hm
            · exact absurd rfl hnej
          · intro hq
            exact Or.inl ((adm_mem q).mpr hq)
    · dsimp only [Option.toList]
      refine List.pairwise_append.mpr ⟨adm_sorted, List.sorted_singleton _, ?_⟩
      intro x hx b hb
      rw [List.mem_singleton] at hb
      subst hb
      rcases (adm_mem x).mp hx with hc | hc
      · have hx1 := inside_cur x hc
        omega
      · have hx1 := released_lt x hc
        omega

theorem inv_step_cancel (fate : Nat → Bool) (c : Config) (i : Nat) (st' : OMState)
    (w : Option Nat) (hinv : Inv fate c) (hf : fate i = true)
    (hs : c.status i = .pending) (hr : returnTicket c.st i = (st', w)) :
    Inv fate ⟨st', applyWake (Function.update c.status i .cancelled) w,
      c.adm ++ w.toList⟩ := by
  obtain ⟨next_lt, cur_le, issued_iff, parked_iff, burned_iff, inside_cur, released_lt,
    pending_ge, parked_gt, fate_burn, fate_live, adm_mem, adm_sorted⟩ := hinv
  have hige : c.st.cur ≤ i := pending_ge i hs
  have hiN : i < c.st.next := (issued_iff i).mp (by rw [hs]; intro hc; cases hc)
  have hiW : i ∉ c.st.waiters := fun hm => by
    have := (parked_iff i).mpr hm
    rw [hs] at this
    cases this
  have hiA : i ∉ c.adm := fun hm => by
    rcases (adm_mem i).mp hm with hc | hc <;> (rw [hs] at hc; cases hc)
  rw [returnTicket_live c.st i (by omega), Finset.erase_eq_of_not_mem hiW] at hr
  have H1 : ∀ q, Function.update c.status i TStatus.cancelled q = .parked
      ↔ q ∈ c.st.waiters := by
    intro q
    rcases eq_or_ne q i with rfl | hne
    · rw [Function.update_same]
      exact ⟨fun hc => (nomatch hc), fun hm => absurd hm hiW⟩
    · rw [Function.update_noteq hne]
      exact parked_iff q
  have H2 : ∀ q, q ∈ insert i c.st.burned
      ↔ (Function.update c.status i TStatus.cancelled q = .cancelled
          ∧ c.st.cur ≤ q) := by
    intro q
    rcases eq_or_ne q i with rfl | hne
    · rw [Function.update_same]
      exact ⟨fun _ => ⟨rfl, hige⟩, fun _ => Finset.mem_insert_self _ _⟩
    · rw [Function.update_noteq hne, Finset.mem_insert]
      constructor
      · rintro (rfl | hm)
        · exact absurd rfl hne
        · exact (burned_iff q).mp hm
      · intro hq
        exact Or.inr ((burned_iff q).mpr hq)
  have H3 : ∀ q, Function.update c.status i TStatus.cancelled q = .pending
      → c.st.cur ≤ q := by
    intro q hq
    rcases eq_or_ne q i with rfl | hne
    · rw [Function.update_same] at hq
      cases hq
    · rw [Function.update_noteq hne] at hq
      exact pending_ge q hq
  have H4 : ∀ q, Function.update c.status i TStatus.cancelled q = .parked
      → c.st.cur ≤ q := by
    intro q hq
    rcases eq_or_ne q i with rfl | hne
    · rw [Function.update_same] at hq
      cases hq
    · rw [Function.update_noteq hne] at hq
      have := parked_gt q hq
      omega
  have H5 : ∀ q, Function.update c.status i TStatus.cancelled q = .inside
      → q = c.st.cur := by
    intro q hq
    rcases eq_or_ne q i with rfl | hne
    · rw [Function.update_same] at hq
      cases hq
    · rw [Function.update_noteq hne] at hq
      exact inside_cur q hq
  have H6 : ∀ q, Function.update c.status i TStatus.cancelled q = .released
      → q < c.st.cur := by
    intro q hq
    rcases eq_or_ne q i with rfl | hne
    · rw [Function.update_same] at hq
      cases hq
    · rw [Function.update_noteq hne] at hq
      exact released_lt q hq
  have HB : ∀ q ∈ insert i c.st.burned, q < c.st.next := by
    intro q hm
    rcases Finset.mem_insert.mp hm with rfl | hm
    · exact hiN
    · have hc := ((burned_iff q).mp hm).1
      exact (issued_iff q).mp (by rw [hc]; intro h2; cases h2)
  obtain ⟨m1, m2, m3, m4, m5, m6, m7, m8, m9, m10, m11⟩ :=
    wakeStep_spec ⟨c.st.next, c.st.cur, c.st.waiters, insert i c.st.burned⟩
      (Function.update c.status i .cancelled) H1 H2 H3 H4 H5 H6 HB cur_le next_lt
  rw [hr] at m1 m2 m3 m4 m5 m6 m7 m8 m9 m10 m11
  dsimp only at m1 m2 m3 m4 m5 m6 m7 m8 m9 m10 m11
  rcases w with - | j
  · refine ⟨by dsimp only; rw [m1]; exact next_lt,
      by dsimp only; rw [← m1] at m3; exact m3,
      ?_, m4, m5, m7, m8, m6, m9, ?_, ?_, ?_, ?_⟩
    · intro q
      dsimp only [applyWake]
      rw [m1]
      rcases eq_or_ne q i with rfl | hne
      · rw [Function.update_same]
        exact ⟨fun _ => hiN, fun _ hc => by cases hc⟩
      · rw [Function.update_noteq hne]
        exact issued_iff q
    · intro q hq
      dsimp only [applyWake] at hq
      rcases eq_or_ne q i with rfl | hne
      · exact hf
      · rw [Function.update_noteq hne] at hq
        exact fate_burn q hq
    · intro q hq
      dsimp only [applyWake] at hq
      rcases eq_or_ne q i with rfl | hne
      · rw [Function.update_same] at hq
        rcases hq with hc | hc | hc <;> cases hc
      · rw [Function.update_noteq hne] at hq
        exact fate_live q hq
    · intro q
      dsimp only [applyWake, Option.toList]
      rw [List.append_nil]
      rcases eq_or_ne q i with rfl | hne
      · rw [Function.update_same]
        exact ⟨fun hm => absurd hm hiA, fun hq => by rcases hq with hc | hc <;> cases hc⟩
      · rw [Function.update_noteq hne]
        exact adm_mem q
    · dsimp only [Option.toList]
      rw [List.append_nil]
      exact adm_sorted
  · obtain ⟨hjc, hjp⟩ := m10 j rfl
    have hjne : j ≠ i := by
      intro hji
      rw [hji, Function.update_same] at hjp
      cases hjp
    have hjPark : c.status j = .parked := by
      rw [Function.update_noteq hjne] at hjp
      exact hjp
    have hjN : j < c.st.next := (issued_iff j).mp (by rw [hjPark]; intro hc; cases hc)
    have hjA : j ∉ c.adm := fun hm => by
      rcases (adm_mem j).mp hm with hc | hc <;> (rw [hjPark] at hc; cases hc)
    have hjgt : c.st.cur < j := parked_gt j hjPark
    refine ⟨by dsimp only; rw [m1]; exact next_lt,
      by dsimp only; rw [← m1] at m3; exact m3,
      ?_, m4, m5, m7, m8, m6, m9, ?_, ?_, ?_, ?_⟩
    · intro q
      dsimp only [applyWake]
      rw [m1]
      rcases eq_or_ne q j with rfl | hnej
      · rw [Function.update_same]
        exact ⟨fun _ => hjN, fun _ hc => by cases hc⟩
      · rw [Function.update_noteq hnej]
        rcases eq_or_ne q i with rfl | hne
        · rw [Function.update_same]
          exact ⟨fun _ => hiN, fun _ hc => by cases hc⟩
        · rw [Function.update_noteq hne]
          exact issued_iff q
    · intro q hq
      dsimp only [applyWake] at hq
      rcases eq_or_ne q j with rfl | hnej
      · rw [Function.update_same] at hq
        cases hq
      · rw [Function.update_noteq hnej] at hq
        rcases eq_or_ne q i with rfl | hne
        · exact hf
        · rw [Function.update_noteq hne] at hq
          exact fate_burn q hq
    · intro q hq
      dsimp only [applyWake] at hq
      rcases eq_or_ne q j with rfl | hnej
      · exact fate_live q (Or.inr (Or.inr hjPark))
      · rw [Function.update_noteq hnej] at hq
        rcases eq_or_ne q i with rfl | hne
        · rw [Function.update_same] at hq
          rcases hq with hc | hc | hc <;> cases hc
        · rw [Function.update_noteq hne] at hq
          exact fate_live q hq
    · intro q
      dsimp only [applyWake, Option.toList]
      rw [List.mem_append, List.mem_singleton]
      rcases eq_or_ne q j with rfl | hnej
      · rw [Function.update_same]
        exact ⟨fun _ => Or.inl rfl, fun _ => Or.inr rfl⟩
      · rw [Function.update_noteq hnej]
        rcases eq_or_ne q i with rfl | hne
        · rw [Function.update_same]
          constructor
          · rintro (hm | rfl)
            · exact absurd hm hiA
            · exact absurd rfl hnej
          · rintro (hc | hc) <;> cases hc
        · rw [Function.update_noteq hne]
          constructor
          · rintro (hm | rfl)
            · exact (adm_mem q).mp hm
            · exact absurd rfl hnej
          · intro hq
            exact Or.inl ((adm_mem q).mpr hq)
    · dsimp only [Option.toList]
      refine List.pairwise_append.mpr ⟨adm_sorted, List.sorted_singleton _, ?_⟩
      intro x hx b hb
      rw [List.mem_singleton] at hb
      subst hb
      rcases (adm_mem x).mp hx with hc | hc
      · have hx1 := inside_cur x hc
        omega
      · have hx1 := released_lt x hc
        omega

theorem inv_step_cancelLate (fate : Nat → Bool) (c : Config) (i : Nat) (st' : OMState)
    (w : Option Nat) (hinv : Inv fate c) (hs : c.status i = .released)
    (hr : returnTicket c.st i = (st', w)) :
    Inv fate ⟨st', applyWake c.status w, c.adm ++ w.toList⟩ := by
  have hlt : i < c.st.cur := hinv.released_lt i hs
  rw [returnTicket_resolved c.st i hlt] at hr
  injection hr with h1 h2
  subst h1
  subst h2
  have : c.adm ++ (none : Option Nat).toList = c.adm := List.append_nil _
  rw [this]
  exact hinv

theorem inv_step (fate : Nat → Bool) (c c' : Config) (hinv : Inv fate c)
    (hstep : Step fate c c') : Inv fate c' := by
  cases hstep with
  | issue h => exact inv_step_issue fate c hinv h
  | lockFast i st' hf hs hl => exact inv_step_lockFast fate c i st' hinv hf hs hl
  | lockPark i st' hf hs hl => exact inv_step_lockPark fate c i st' hinv hf hs hl
  | unlockStep i st' w hs hu => exact inv_step_unlock fate c i st' w hinv hs hu
  | cancelStep i st' w hf hs hr => exact inv_step_cancel fate c i st' w hinv hf hs hr
  | cancelLate i st' w hs hr => exact inv_step_cancelLate fate c i st' w hinv hs hr

theorem inv_reach (fate : Nat → Bool) (c : Config) (h : reach fate c) :
    Inv fate c := by
  induction h with
  | refl => exact inv_init fate
  | tail hab hbc ih => exact inv_step fate _ _ ih hbc

/-- C6: `Lock(t)` with `id == cur` returns immediately on the fast path with
the state completely unchanged (`next`, `cur`, `waiters`, `burned` all as
before); and a Lock call returns only when `cur` equals its position — a
wakeup is fired for `j` only when `j` is the (advanced) current position, so
upon resumption `cur == position` already holds; consequently, in every
reachable configuration a caller admitted into the critical section has
position equal to `cur`. -/
theorem c6_admit_fast_path (s : OMState) (p : Nat) (hp : p = s.cur) :
    lock s p = (s, true)
    ∧ (∀ s' j, advanceAndWakeNext s = (s', some j) → j = s'.cur)
    ∧ (∀ fate c, reach fate c → ∀ i, c.status i = TStatus.inside → i = c.st.cur) := by
  refine ⟨?_, ?_, ?_⟩
  · simp [lock, hp]
  · intro s' j hj
    rw [advanceAndWakeNext_eq] at hj
    by_cases hm : (advanceLoop s.cur s.burned).1 ∈ s.waiters
    · rw [if_pos hm, if_pos hm] at hj
      obtain ⟨h1, h2⟩ := Prod.mk.injEq .. ▸ hj
      cases h1
      cases h2
      rfl
    · rw [if_neg hm, if_neg hm] at hj
      exact absurd (Prod.mk.injEq .. ▸ hj).2 (by simp)
  · intro fate c h i hi
    exact (inv_reach fate c h).inside_cur i hi

theorem c6_admit_fast_path_witness :
    ((2 : Nat) = (⟨5, 2, ∅, ∅⟩ : OMState).cur) ∧
    lock ⟨5, 2, ∅, ∅⟩ 2 = (⟨5, 2, ∅, ∅⟩, true) :=
  ⟨by decide, (c6_admit_fast_path ⟨5, 2, ∅, ∅⟩ 2 (by decide)).1⟩

/-- C7: the data-model invariant holds in the initial state and is preserved
by every operation invoked under the documented usage contract (every
configuration reachable by contract-respecting steps satisfies it):
`next >= cur`; `waiters` (a finite map, hence at most one entry per
position) holds entries only for positions `>= cur`; and `cancelled`
(`burned`) contains no position `< cur`. -/
theorem c7_invariant (fate : Nat → Bool) (c : Config) (h : reach fate c) :
    c.st.cur ≤ c.st.next
    ∧ (∀ p ∈ c.st.waiters, c.st.cur ≤ p)
    ∧ (∀ p ∈ c.st.burned, c.st.cur ≤ p) := by
  have hinv := inv_reach fate c h
  refine ⟨hinv.cur_le, ?_, ?_⟩
  · intro p hp
    have := hinv.parked_gt p ((hinv.parked_iff p).mpr hp)
    omega
  · intro p hp
    exact ((hinv.burned_iff p).mp hp).2

theorem c7_invariant_witness :
    reach (fun _ => false) initConfig
    ∧ initConfig.st.cur ≤ initConfig.st.next :=
  ⟨Relation.ReflTransGen.refl,
    (c7_invariant (fun _ => false) initConfig Relation.ReflTransGen.refl).1⟩

theorem length_filter_not_add (p : Nat → Bool) (l : List Nat) :
    (l.filter (fun i => !p i)).length + (l.filter p).length = l.length := by
  induction l with
  | nil => rfl
  | cons a t ih =>
    by_cases h : p a = true
    · rw [List.filter_cons, List.filter_cons, if_pos h, if_neg (by simp [h])]
      simp only [List.length_cons, List.length]
      omega
    · rw [List.filter_cons, List.filter_cons, if_neg h, if_pos (by simp [Bool.not_eq_true] at h ⊢; exact h)]
      simp only [List.length_cons, List.length]
      omega

/-- C1: for every contract-respecting execution in which each issued position
is either cancelled strictly before its Admit or admitted then released
(i.e., every reachable configuration in which all issued positions have
reached a terminal status), the realized admission order equals the
subsequence of non-cancelled positions of `0..N-1` in strictly increasing
issuance order — no gaps, no duplicates, and exactly `N - cancelled-count`
admissions for `N` issued positions. -/
theorem c1_admission_order (fate : Nat → Bool) (c : Config) (h : reach fate c)
    (hterm : ∀ i, i < c.st.next →
      c.status i = TStatus.released ∨ c.status i = TStatus.cancelled) :
    c.adm = (List.range c.st.next).filter (fun i => !fate i)
    ∧ c.adm.Sorted (· < ·)
    ∧ c.adm.Nodup
    ∧ c.adm.length
        = c.st.next - ((List.range c.st.next).filter (fun i => fate i)).length := by
  have hinv := inv_reach fate c h
  have hmem : ∀ q, q ∈ c.adm ↔ (q < c.st.next ∧ fate q = false) := by
    intro q
    rw [hinv.adm_mem q]
    constructor
    · intro hq
      have hqn : q < c.st.next := by
        apply (hinv.issued_iff q).mp
        rcases hq with hq | hq <;> (rw [hq]; intro hc; cases hc)
      refine ⟨hqn, ?_⟩
      rcases hq with hq | hq
      · exact hinv.fate_live q (Or.inl hq)
      · exact hinv.fate_live q (Or.inr (Or.inl hq))
    · rintro ⟨hqn, hqf⟩
      rcases hterm q hqn with hq | hq
      · exact Or.inr hq
      · rw [hinv.fate_burn q hq] at hqf
        cases hqf
  have hnodupAdm : c.adm.Nodup :=
    List.Pairwise.imp (fun hab => Nat.ne_of_lt hab) hinv.adm_sorted
  have hsortedF : ((List.range c.st.next).filter (fun i => !fate i)).Sorted (· < ·) :=
    List.Pairwise.sublist (List.filter_sublist _) (List.sorted_lt_range c.st.next)
  have hnodupF : ((List.range c.st.next).filter (fun i => !fate i)).Nodup :=
    List.Pairwise.imp (fun hab => Nat.ne_of_lt hab) hsortedF
  have hmemF : ∀ q, q ∈ (List.range c.st.next).filter (fun i => !fate i)
      ↔ (q < c.st.next ∧ fate q = false) := by
    intro q
    rw [List.mem_filter, List.mem_range]
    constructor
    · rintro ⟨h1, h2⟩
      refine ⟨h1, ?_⟩
      cases hf : fate q
      · rfl
      · rw [hf] at h2
        cases h2
    · rintro ⟨h1, h2⟩
      exact ⟨h1, by rw [h2]; rfl⟩
  have hperm : c.adm.Perm ((List.range c.st.next).filter (fun i => !fate i)) := by
    rw [List.perm_ext_iff_of_nodup hnodupAdm hnodupF]
    intro q
    rw [hmem q, hmemF q]
  have : IsAntisymm Nat (· < ·) := ⟨fun a b h1 h2 => absurd h1 (Nat.lt_asymm h2)⟩
  have heq : c.adm = (List.range c.st.next).filter (fun i => !fate i) :=
    List.eq_of_perm_of_sorted hperm hinv.adm_sorted hsortedF
  refine ⟨heq, hinv.adm_sorted, hnodupAdm, ?_⟩
  rw [heq]
  have hlen := length_filter_not_add (fun i => fate i) (List.range c.st.next)
  rw [List.length_range] at hlen
  omega

theorem c1_admission_order_witness :
    reach (fun _ => false) initConfig
    ∧ (∀ i, i < initConfig.st.next →
        initConfig.status i = TStatus.released ∨ initConfig.status i = TStatus.cancelled)
    ∧ initConfig.adm
        = (List.range initConfig.st.next).filter (fun i => !(fun _ => false) i) :=
  ⟨Relation.ReflTransGen.refl,
    fun i hi => absurd hi (Nat.not_lt_zero i),
    (c1_admission_order (fun _ => false) initConfig Relation.ReflTransGen.refl
      (fun i hi => absurd hi (Nat.not_lt_zero i))).1⟩

theorem c10_cancel_idempotent_witness :
    ((∀ q ∈ (⟨3, 1, ∅, {2}⟩ : OMState).burned, q < U - 1) ∧ (1 : Nat) < U - 1)
    ∧ returnTicket (returnTicket ⟨3, 1, ∅, {2}⟩ 1).1 1
        = ((returnTicket ⟨3, 1, ∅, {2}⟩ 1).1, none) :=
  ⟨⟨by decide, by decide⟩,
    c10_cancel_idempotent ⟨3, 1, ∅, {2}⟩ 1 (by decide) (by decide)⟩

end OrderMutex
